import Mathlib

/-!
Verification of the analytics engine of the daily mental-health tracker.

The analytics logic lives in the Express route handlers (analytics routes,
journal routes, mood routes) and in the Mongoose model virtuals.  Pure
fragments of those handlers are embedded here as Lean functions:

* numbers computed by JS arithmetic on entry fields are modelled as exact
  rationals (`ℚ`);
* calendar days (the midnight-normalized dates and the ISO `YYYY-MM-DD`
  date keys) are modelled as integers / naturals — lexicographic order on
  ISO date keys coincides with numeric order on day numbers;
* JS objects used as dictionaries (`tagCounts`, `dailyStats`,
  `moodDistribution`) are modelled as association lists in key-insertion
  order, matching the JS enumeration order of non-numeric string keys.
-/

namespace Tracker

/-! ## Data model (Mongoose schemas) -/

/-- The five mood categories of the `mood` enum in the MoodEntry and
JournalEntry schemas. -/
inductive Mood
  | verySad
  | sad
  | neutral
  | happy
  | veryHappy
deriving DecidableEq, Repr

/-- The `moodScore` virtual of the MoodEntry schema: the `moodMap` object
literal sending each mood category to its 1–5 ordinal score. -/
def moodScore : Mood → ℚ
  | .verySad => 1
  | .sad => 2
  | .neutral => 3
  | .happy => 4
  | .veryHappy => 5

/-- A mood entry, restricted to the fields the analytics handlers read:
the calendar day of its date (day number; the handlers key days by the
ISO date string, whose lexicographic order is day-number order), the mood
category, and the numeric levels. -/
structure MoodEntry where
  day : ℕ
  mood : Mood
  energy : ℚ
  stress : ℚ
  anxiety : ℚ
  sleepHours : ℚ
deriving DecidableEq, Repr

/-! ## Shared arithmetic helpers (JS `reduce` folds) -/

/-- `values.reduce((a, b) => a + b, 0)`. -/
def reduceSum (values : List ℚ) : ℚ :=
  values.foldl (· + ·) 0

/-- `values.reduce((acc, val) => acc + Math.pow(val - m, 2), 0)`. -/
def reduceSqDiff (m : ℚ) (values : List ℚ) : ℚ :=
  values.foldl (fun acc val => acc + (val - m) ^ 2) 0

theorem foldl_add_eq (f : ℚ → ℚ) (a : ℚ) (l : List ℚ) :
    l.foldl (fun acc val => acc + f val) a = a + (l.map f).sum := by
  induction l generalizing a with
  | nil => simp
  | cons x xs ih => simp [ih, add_assoc]

theorem reduceSum_eq_sum (l : List ℚ) : reduceSum l = l.sum := by
  have h := foldl_add_eq id 0 l
  simpa [reduceSum] using h

theorem reduceSqDiff_eq_sum (m : ℚ) (l : List ℚ) :
    reduceSqDiff m l = (l.map (fun x => (x - m) ^ 2)).sum := by
  have h := foldl_add_eq (fun x => (x - m) ^ 2) 0 l
  simpa [reduceSqDiff] using h

/-! ## Statistics Calculator (GET /api/analytics/trends handler) -/

/-- The three-way `trends.statistics.trend` classification. -/
inductive Trend
  | increasing
  | decreasing
  | stable
deriving DecidableEq, Repr

/-- The trend-direction block of the trends handler:

    if (values.length >= 2) {
      const firstHalf = values.slice(0, Math.floor(values.length / 2));
      const secondHalf = values.slice(Math.floor(values.length / 2));
      const firstAvg = firstHalf.reduce((a, b) => a + b, 0) / firstHalf.length;
      const secondAvg = secondHalf.reduce((a, b) => a + b, 0) / secondHalf.length;
      const change = ((secondAvg - firstAvg) / firstAvg) * 100;
      if (change > 5) trend = 'increasing';
      else if (change < -5) trend = 'decreasing';
      else trend = 'stable';
    }

The handler performs no zero test on `firstAvg`.  When `firstAvg` is `0`,
JS division yields `Infinity` (for `secondAvg > 0`), `-Infinity` (for
`secondAvg < 0`) or `NaN` (for `secondAvg = 0`); the comparisons
`change > 5` / `change < -5` then select `increasing` / `decreasing` /
`stable` respectively, which is what the `firstAvg = 0` branch below
spells out.  Away from the zero denominator the arithmetic is exact. -/
def trendDirection (values : List ℚ) : Trend :=
  if 2 ≤ values.length then
    let firstHalf := values.take (values.length / 2)
    let secondHalf := values.drop (values.length / 2)
    let firstAvg := reduceSum firstHalf / (firstHalf.length : ℚ)
    let secondAvg := reduceSum secondHalf / (secondHalf.length : ℚ)
    if firstAvg = 0 then
      if 0 < secondAvg then .increasing
      else if secondAvg < 0 then .decreasing
      else .stable
    else
      let change := (secondAvg - firstAvg) / firstAvg * 100
      if 5 < change then .increasing
      else if change < -5 then .decreasing
      else .stable
  else .stable

/-- The `trends.statistics` object.  The handler stores
`volatility = Math.sqrt(variance)`; the exact rational `variance` is kept
in the structure and the square root is taken by `volatility` below. -/
structure TrendStatistics where
  min : ℚ
  max : ℚ
  average : ℚ
  trend : Trend
  variance : ℚ
deriving DecidableEq, Repr

/-- The initial `trends.statistics` literal
`{ min: 0, max: 0, average: 0, trend: 'stable', volatility: 0 }`. -/
def initialStatistics : TrendStatistics :=
  { min := 0, max := 0, average := 0, trend := .stable, variance := 0 }

/-- The statistics block of the trends handler: the initial object is
updated only under the `moodEntries.length > 0` guard, where
`min`/`max` are `Math.min(...values)`/`Math.max(...values)`,
`average` is the sum fold divided by the length, and the variance is the
squared-difference fold divided by the length. -/
def computeStatistics (values : List ℚ) : TrendStatistics :=
  match values with
  | [] => initialStatistics
  | v :: vs =>
    let average := reduceSum (v :: vs) / ((v :: vs).length : ℚ)
    { min := vs.foldl min v
      max := vs.foldl max v
      average := average
      trend := trendDirection (v :: vs)
      variance := reduceSqDiff average (v :: vs) / ((v :: vs).length : ℚ) }

/-- `trends.statistics.volatility = Math.sqrt(variance)`. -/
noncomputable def volatility (values : List ℚ) : ℝ :=
  Real.sqrt ((computeStatistics values).variance)

/-! ## Streak Calculator (writing-streak loops of the journal stats and
analytics overview handlers)

A journal entry enters the loop only through its midnight-normalized
date, so entries are represented by their day numbers (`ℤ`).  On
midnight-normalized dates `diffTime` is an exact multiple of a day, so
`Math.ceil(diffTime / 86400000)` is exactly the day difference. -/

/-- One insertion step of sorting day numbers in descending order —
`entries.sort((a, b) => new Date(b.date) - new Date(a.date))`.  Entries on
the same day are equal here, so tie order is irrelevant. -/
def insertDesc (d : ℤ) : List ℤ → List ℤ
  | [] => [d]
  | e :: es => if e < d then d :: e :: es else e :: insertDesc d es

/-- Descending sort of the entry days. -/
def sortDesc (l : List ℤ) : List ℤ :=
  l.foldr insertDesc []

/-- The streak loop body:

    for (const entry of sortedEntries) {
      const diffDays = Math.ceil((currentDate - entryDate) / 86400000);
      if (diffDays === streak + 1 || (streak === 0 && diffDays <= 1)) {
        streak++;
        currentDate = entryDate;
      } else break;
    }
-/
def streakLoop : List ℤ → ℕ → ℤ → ℕ
  | [], streak, _ => streak
  | e :: es, streak, currentDate =>
    let diffDays := currentDate - e
    if diffDays = (streak : ℤ) + 1 ∨ (streak = 0 ∧ diffDays ≤ 1) then
      streakLoop es (streak + 1) e
    else streak

/-- The writing streak: sort the entry days descending, then run the loop
with `streak = 0` and the cursor at (midnight-normalized) `today`. -/
def writingStreak (today : ℤ) (entryDays : List ℤ) : ℕ :=
  streakLoop (sortDesc entryDays) 0 today

/-! ## JS-object dictionaries as insertion-ordered association lists

`tagCounts[k] = f(tagCounts[k] || default)`-style updates keep an existing
string key at its position and append a missing key at the end, which is
also the enumeration order of `Object.entries` / `Object.keys` for these
keys. -/

/-- Update key `k` by `f`, creating it with value `f b0` if absent. -/
def upsertWith {κ β : Type _} [DecidableEq κ] (b0 : β) (k : κ) (f : β → β) :
    List (κ × β) → List (κ × β)
  | [] => [(k, f b0)]
  | (k2, b) :: rest =>
    if k2 = k then (k2, f b) :: rest else (k2, b) :: upsertWith b0 k f rest

/-- The distinct elements of a list in order of first occurrence. -/
def firstSeen {κ : Type _} [DecidableEq κ] (l : List κ) : List κ :=
  l.foldl (fun acc t => if t ∈ acc then acc else acc ++ [t]) []

theorem firstSeen_append {κ : Type _} [DecidableEq κ] (l : List κ) (t : κ) :
    firstSeen (l ++ [t]) =
      if t ∈ firstSeen l then firstSeen l else firstSeen l ++ [t] := by
  simp [firstSeen, List.foldl_append]

theorem mem_firstSeen {κ : Type _} [DecidableEq κ] (l : List κ) :
    ∀ s, s ∈ firstSeen l ↔ s ∈ l := by
  induction l using List.reverseRecOn with
  | nil => simp [firstSeen]
  | append_singleton l t ih =>
    intro s
    rw [firstSeen_append]
    by_cases h : t ∈ firstSeen l
    · have ht : t ∈ l := (ih t).mp h
      rw [if_pos h, ih s, List.mem_append, List.mem_singleton]
      constructor
      · exact Or.inl
      · rintro (hs | rfl)
        · exact hs
        · exact ht
    · rw [if_neg h]
      simp [ih s]

theorem nodup_firstSeen {κ : Type _} [DecidableEq κ] (l : List κ) :
    (firstSeen l).Nodup := by
  induction l using List.reverseRecOn with
  | nil => simp [firstSeen]
  | append_singleton l t ih =>
    rw [firstSeen_append]
    by_cases h : t ∈ firstSeen l
    · rwa [if_pos h]
    · rw [if_neg h]
      refine ih.append (List.nodup_singleton t) ?_
      intro a ha hb
      rw [List.mem_singleton] at hb
      exact h (hb ▸ ha)

theorem upsertWith_map_mem {κ β : Type _} [DecidableEq κ] (b0 : β)
    (f : β → β) (g : κ → β) (t : κ) (ts : List κ) (hmem : t ∈ ts)
    (hnd : ts.Nodup) :
    upsertWith b0 t f (ts.map (fun s => (s, g s))) =
      ts.map (fun s => (s, if s = t then f (g s) else g s)) := by
  induction ts with
  | nil => simp at hmem
  | cons s ss ih =>
    rcases List.mem_cons.mp hmem with h | h
    · subst h
      have hne : ∀ u ∈ ss, ¬(u = t) := by
        intro u hu he; exact (List.nodup_cons.mp hnd).1 (he ▸ hu)
      simp only [List.map_cons, upsertWith, if_pos rfl]
      refine List.cons_eq_cons.mpr ⟨by simp, ?_⟩
      refine (List.map_congr_left ?_).symm
      intro u hu
      simp [hne u hu]
    · have hst : ¬(s = t) := by
        intro he; exact (List.nodup_cons.mp hnd).1 (he ▸ h)
      simp only [List.map_cons, upsertWith, if_neg hst]
      rw [ih h (List.nodup_cons.mp hnd).2]

theorem upsertWith_map_not_mem {κ β : Type _} [DecidableEq κ] (b0 : β)
    (f : β → β) (g : κ → β) (t : κ) (ts : List κ) (hmem : t ∉ ts) :
    upsertWith b0 t f (ts.map (fun s => (s, g s))) =
      ts.map (fun s => (s, g s)) ++ [(t, f b0)] := by
  induction ts with
  | nil => simp [upsertWith]
  | cons s ss ih =>
    have hst : ¬(s = t) := fun he => hmem (he ▸ List.mem_cons_self s ss)
    simp only [List.map_cons, upsertWith, if_neg hst, List.cons_append]
    rw [ih (fun h => hmem (List.mem_cons_of_mem s h))]

/-- A left fold of `upsertWith` updates over a record list builds exactly
the association list whose keys are the distinct record keys in
first-seen order and whose value at `k` folds the updates of the records
with key `k`, in record order, starting from `b0`. -/
theorem foldl_upsertWith {α κ β : Type _} [DecidableEq κ] (b0 : β)
    (g : α → κ) (F : α → β → β) (l : List α) :
    l.foldl (fun acc r => upsertWith b0 (g r) (F r) acc) [] =
      (firstSeen (l.map g)).map
        (fun k => (k, (l.filter (fun r => g r = k)).foldl (fun b r => F r b) b0)) := by
  induction l using List.reverseRecOn with
  | nil => simp [firstSeen]
  | append_singleton l r ih =>
    rw [List.foldl_append, List.foldl_cons, List.foldl_nil, ih]
    rw [List.map_append, List.map_singleton, firstSeen_append]
    by_cases h : g r ∈ firstSeen (l.map g)
    · rw [if_pos h]
      rw [upsertWith_map_mem _ _ _ _ _ h (nodup_firstSeen _)]
      apply List.map_congr_left
      intro k hk
      rw [List.filter_append]
      by_cases hkr : g r = k
      · have : List.filter (fun r2 => decide (g r2 = k)) [r] = [r] := by
          simp [List.filter, hkr]
        rw [this, List.foldl_append, List.foldl_cons, List.foldl_nil]
        simp [hkr.symm]
      · have : List.filter (fun r2 => decide (g r2 = k)) [r] = [] := by
          simp [List.filter, hkr]
        rw [this, List.append_nil]
        have hne : ¬(k = g r) := fun he => hkr he.symm
        simp [hne]
    · rw [if_neg h]
      rw [upsertWith_map_not_mem _ _ _ _ _ h]
      rw [List.map_append, List.map_singleton]
      congr 1
      · apply List.map_congr_left
        intro k hk
        have hne : ¬(g r = k) := fun he => h (he ▸ hk)
        rw [List.filter_append]
        have : List.filter (fun r2 => decide (g r2 = k)) [r] = [] := by
          simp [List.filter_singleton, hne]
        rw [this, List.append_nil]
      · have hfl : l.filter (fun r2 => g r2 = g r) = [] := by
          rw [List.filter_eq_nil_iff]
          intro r2 hr2
          simp only [decide_eq_true_eq]
          intro he
          exact h ((mem_firstSeen (l.map g) (g r)).mpr (he ▸ List.mem_map_of_mem g hr2))
        rw [List.filter_append, hfl, List.nil_append]
        have : List.filter (fun r2 => decide (g r2 = g r)) [r] = [r] := by
          simp [List.filter]
        rw [this, List.foldl_cons, List.foldl_nil]

/-! ## Frequency Ranker (`mostUsedTags` of the journal stats and analytics
overview handlers) -/

/-- `tagCounts[tag] = (tagCounts[tag] || 0) + 1`. -/
def bumpTag (counts : List (String × ℕ)) (tag : String) : List (String × ℕ) :=
  upsertWith 0 tag (· + 1) counts

/-- The tag-count pass:

    const tagCounts = {};
    journalEntries.forEach(entry => {
      entry.tags.forEach(tag => {
        tagCounts[tag] = (tagCounts[tag] || 0) + 1;
      });
    });

Each record contributes its tag list. -/
def tagCounts (records : List (List String)) : List (String × ℕ) :=
  records.foldl (fun acc tags => tags.foldl bumpTag acc) []

/-- One insertion step of the stable descending-by-count sort
`.sort(([,a], [,b]) => b - a)`: a pair is placed before the first pair of
smaller-or-equal count it meets (folding from the right, this keeps
equal-count pairs in their original relative order). -/
def insertByCountDesc {κ : Type _} (p : κ × ℕ) :
    List (κ × ℕ) → List (κ × ℕ)
  | [] => [p]
  | q :: qs => if q.2 ≤ p.2 then p :: q :: qs else q :: insertByCountDesc p qs

/-- Stable sort of (label, count) pairs in descending count order. -/
def sortByCountDesc {κ : Type _} (l : List (κ × ℕ)) : List (κ × ℕ) :=
  l.foldr insertByCountDesc []

/-- `mostUsedTags = Object.entries(tagCounts).sort(([,a],[,b]) => b - a)
.slice(0, 10).map(([tag, count]) => ({ tag, count }))`. -/
def mostUsedTags (records : List (List String)) : List (String × ℕ) :=
  (sortByCountDesc (tagCounts records)).take 10

theorem mem_insertByCountDesc {κ : Type _} (p x : κ × ℕ) (l : List (κ × ℕ)) :
    x ∈ insertByCountDesc p l ↔ x = p ∨ x ∈ l := by
  induction l with
  | nil => simp [insertByCountDesc]
  | cons q qs ih =>
    by_cases h : q.2 ≤ p.2
    · simp [insertByCountDesc, h]
    · simp [insertByCountDesc, h, ih]
      tauto

theorem perm_insertByCountDesc {κ : Type _} (p : κ × ℕ) (l : List (κ × ℕ)) :
    (insertByCountDesc p l).Perm (p :: l) := by
  induction l with
  | nil => simp [insertByCountDesc]
  | cons q qs ih =>
    by_cases h : q.2 ≤ p.2
    · simp [insertByCountDesc, h]
    · rw [insertByCountDesc, if_neg h]
      exact (ih.cons q).trans (List.Perm.swap p q qs)

theorem perm_sortByCountDesc {κ : Type _} (l : List (κ × ℕ)) :
    (sortByCountDesc l).Perm l := by
  induction l with
  | nil => simp [sortByCountDesc]
  | cons p ps ih =>
    exact (perm_insertByCountDesc p (sortByCountDesc ps)).trans (ih.cons p)

theorem sorted_insertByCountDesc {κ : Type _} (p : κ × ℕ) (l : List (κ × ℕ))
    (hl : l.Pairwise (fun a b => b.2 ≤ a.2)) :
    (insertByCountDesc p l).Pairwise (fun a b => b.2 ≤ a.2) := by
  induction l with
  | nil => simp [insertByCountDesc]
  | cons q qs ih =>
    rcases List.pairwise_cons.mp hl with ⟨hq, hqs⟩
    by_cases h : q.2 ≤ p.2
    · rw [insertByCountDesc, if_pos h]
      refine List.pairwise_cons.mpr ⟨?_, hl⟩
      intro b hb
      rcases List.mem_cons.mp hb with rfl | hb
      · exact h
      · exact le_trans (hq b hb) h
    · rw [insertByCountDesc, if_neg h]
      refine List.pairwise_cons.mpr ⟨?_, ih hqs⟩
      intro b hb
      rcases (mem_insertByCountDesc p b qs).mp hb with rfl | hb
      · exact le_of_not_le h
      · exact hq b hb

theorem sorted_sortByCountDesc {κ : Type _} (l : List (κ × ℕ)) :
    (sortByCountDesc l).Pairwise (fun a b => b.2 ≤ a.2) := by
  induction l with
  | nil => simp [sortByCountDesc]
  | cons p ps ih => exact sorted_insertByCountDesc p (sortByCountDesc ps) ih

/-- Stability of the descending-by-count insertion sort: within each
count value, the sorted list keeps the original order. -/
theorem filter_insertByCountDesc {κ : Type _} (c : ℕ) (p : κ × ℕ)
    (l : List (κ × ℕ)) :
    (insertByCountDesc p l).filter (fun q => q.2 = c) =
      if p.2 = c then p :: l.filter (fun q => q.2 = c)
      else l.filter (fun q => q.2 = c) := by
  induction l with
  | nil =>
    by_cases h : p.2 = c <;> simp [insertByCountDesc, List.filter, h]
  | cons q qs ih =>
    by_cases h : q.2 ≤ p.2
    · rw [insertByCountDesc, if_pos h]
      by_cases hp : p.2 = c
      · have hq : ¬(q.2 = c) ∨ q.2 = c := em _ |>.symm
        by_cases hqc : q.2 = c
        · simp [List.filter, hp, hqc]
        · simp [List.filter, hp, hqc]
      · simp [List.filter, hp]
    · rw [insertByCountDesc, if_neg h]
      have hqp : p.2 < q.2 := lt_of_not_le h
      by_cases hqc : q.2 = c
      · have hp : ¬(p.2 = c) := by omega
        simp [List.filter, hqc, hp, ih]
      · simp [List.filter, hqc, ih]

theorem filter_sortByCountDesc {κ : Type _} (c : ℕ) (l : List (κ × ℕ)) :
    (sortByCountDesc l).filter (fun q => q.2 = c) =
      l.filter (fun q => q.2 = c) := by
  induction l with
  | nil => simp [sortByCountDesc]
  | cons p ps ih =>
    show (insertByCountDesc p (sortByCountDesc ps)).filter _ = _
    rw [filter_insertByCountDesc]
    by_cases hp : p.2 = c <;> simp [List.filter, hp, ih]

theorem tagCounts_eq_join_foldl (records : List (List String)) :
    tagCounts records = (records.flatten).foldl bumpTag [] := by
  suffices h : ∀ acc : List (String × ℕ),
      records.foldl (fun acc tags => tags.foldl bumpTag acc) acc =
        (records.flatten).foldl bumpTag acc by
    exact h []
  induction records with
  | nil => intro acc; simp
  | cons tags rest ih =>
    intro acc
    simp [List.flatten, List.foldl_append, ih]

/-- Modelled from the spec: the count pass described in §4.5 — each
distinct tag, in the order it is first encountered, paired with its
number of occurrences across all records. -/
def specTagCounts (flat : List String) : List (String × ℕ) :=
  (firstSeen flat).map (fun t => (t, (flat.filter (fun s => s = t)).length))

theorem foldl_count (l : List String) (n : ℕ) :
    l.foldl (fun b _ => b + 1) n = n + l.length := by
  induction l generalizing n with
  | nil => simp
  | cons x xs ih => simp [ih]; omega

theorem tagCounts_eq_specTagCounts (records : List (List String)) :
    tagCounts records = specTagCounts (records.flatten) := by
  rw [tagCounts_eq_join_foldl]
  have h := foldl_upsertWith (α := String) (κ := String) (β := ℕ)
    0 id (fun _ => (· + 1)) records.flatten
  have hb : (records.flatten).foldl bumpTag [] =
      (records.flatten).foldl (fun acc r => upsertWith 0 (id r) ((· + 1)) acc) [] := rfl
  rw [hb, h]
  simp only [List.map_id, specTagCounts]
  apply List.map_congr_left
  intro t ht
  simp [foldl_count]

/-- Modelled from the spec: the ranker of §4.5 — count pass, stable
descending sort by count, top `n`. -/
def specTopTags (n : ℕ) (records : List (List String)) : List (String × ℕ) :=
  (sortByCountDesc (specTagCounts (records.flatten))).take n

/-! ## Daily Aggregator (`dailyStats` / `trends` of the mood stats and
analytics overview handlers) -/

/-- One record entering the daily grouping:

    if (!dailyStats[dateKey]) dailyStats[dateKey] = { ...: [] };
    dailyStats[dateKey].metric.push(value);
-/
def pushDay (day : ℕ) (v : ℚ) (acc : List (ℕ × List ℚ)) :
    List (ℕ × List ℚ) :=
  upsertWith [] day (· ++ [v]) acc

/-- The grouping pass of the daily-trends block, for one metric extractor
`f` (the five metrics are pushed by identical statements). -/
def dailyGroups (f : MoodEntry → ℚ) (entries : List MoodEntry) :
    List (ℕ × List ℚ) :=
  entries.foldl (fun acc e => pushDay e.day (f e) acc) []

/-- One insertion step of `Object.keys(dailyStats).sort()` — ascending
order of date keys (lexicographic on ISO dates = numeric on day
numbers); the keys are distinct, so tie order is irrelevant. -/
def insertAsc (d : ℕ) : List ℕ → List ℕ
  | [] => [d]
  | e :: es => if d ≤ e then d :: e :: es else e :: insertAsc d es

/-- Ascending sort of the date keys. -/
def sortAsc (l : List ℕ) : List ℕ :=
  l.foldr insertAsc []

/-- `dailyStats[date]` for a key produced by the grouping pass. -/
def lookupVals (groups : List (ℕ × List ℚ)) (d : ℕ) : List ℚ :=
  match groups.find? (fun p => p.1 == d) with
  | some p => p.2
  | none => []

/-- The daily-trends block: group by date key, enumerate the keys in
sorted order, and push one `{ date, value }` point per key with
`value = dayStats.metric.reduce((a, b) => a + b, 0) / dayStats.metric.length`. -/
def dailyTrends (f : MoodEntry → ℚ) (entries : List MoodEntry) :
    List (ℕ × ℚ) :=
  let groups := dailyGroups f entries
  (sortAsc (groups.map Prod.fst)).map
    (fun d => (d, reduceSum (lookupVals groups d) /
      ((lookupVals groups d).length : ℚ)))

/-- Modelled from the spec: the Daily Aggregator of §4.2 — one point per
distinct calendar day, in ascending day order, valued at the arithmetic
mean of the metric over that day's records. -/
def specDailyTrends (f : MoodEntry → ℚ) (entries : List MoodEntry) :
    List (ℕ × ℚ) :=
  (sortAsc (firstSeen (entries.map (fun e => e.day)))).map
    (fun d => (d, ((entries.filter (fun e => e.day = d)).map f).sum /
      (((entries.filter (fun e => e.day = d)).map f).length : ℚ)))

theorem mem_insertAsc (d x : ℕ) (l : List ℕ) :
    x ∈ insertAsc d l ↔ x = d ∨ x ∈ l := by
  induction l with
  | nil => simp [insertAsc]
  | cons e es ih =>
    by_cases h : d ≤ e
    · simp [insertAsc, h]
    · simp [insertAsc, h, ih]
      tauto

theorem perm_insertAsc (d : ℕ) (l : List ℕ) :
    (insertAsc d l).Perm (d :: l) := by
  induction l with
  | nil => simp [insertAsc]
  | cons e es ih =>
    by_cases h : d ≤ e
    · simp [insertAsc, h]
    · rw [insertAsc, if_neg h]
      exact (ih.cons e).trans (List.Perm.swap d e es)

theorem perm_sortAsc (l : List ℕ) : (sortAsc l).Perm l := by
  induction l with
  | nil => simp [sortAsc]
  | cons d ds ih =>
    exact (perm_insertAsc d (sortAsc ds)).trans (ih.cons d)

theorem sorted_insertAsc (d : ℕ) (l : List ℕ)
    (hl : l.Pairwise (· ≤ ·)) :
    (insertAsc d l).Pairwise (· ≤ ·) := by
  induction l with
  | nil => simp [insertAsc]
  | cons e es ih =>
    rcases List.pairwise_cons.mp hl with ⟨he, hes⟩
    by_cases h : d ≤ e
    · rw [insertAsc, if_pos h]
      refine List.pairwise_cons.mpr ⟨?_, hl⟩
      intro b hb
      rcases List.mem_cons.mp hb with rfl | hb
      · exact h
      · exact le_trans h (he b hb)
    · rw [insertAsc, if_neg h]
      refine List.pairwise_cons.mpr ⟨?_, ih hes⟩
      intro b hb
      rcases (mem_insertAsc d b es).mp hb with rfl | hb
      · exact le_of_not_le h
      · exact he b hb

theorem sorted_sortAsc (l : List ℕ) : (sortAsc l).Pairwise (· ≤ ·) := by
  induction l with
  | nil => simp [sortAsc]
  | cons d ds ih => exact sorted_insertAsc d (sortAsc ds) ih

theorem find?_map_of_nodup {κ β : Type _} [DecidableEq κ] [BEq κ]
    [LawfulBEq κ] (G : κ → β) (ts : List κ) (d : κ) (hmem : d ∈ ts)
    (hnd : ts.Nodup) :
    (ts.map (fun k => (k, G k))).find? (fun p => p.1 == d) =
      some (d, G d) := by
  induction ts with
  | nil => simp at hmem
  | cons s ss ih =>
    rcases List.mem_cons.mp hmem with h | h
    · subst h
      simp [List.find?]
    · have hsd : ¬(s = d) := by
        intro he; exact (List.nodup_cons.mp hnd).1 (he ▸ h)
      have : ((s, G s).1 == d) = false := by
        simp [hsd]
      simp only [List.map_cons, List.find?, this]
      exact ih h (List.nodup_cons.mp hnd).2

theorem foldl_push_eq_map {α : Type _} (f : α → ℚ) (l : List α)
    (b0 : List ℚ) :
    l.foldl (fun b e => b ++ [f e]) b0 = b0 ++ l.map f := by
  induction l generalizing b0 with
  | nil => simp
  | cons x xs ih => simp [ih]

/-- The grouping pass builds one group per distinct day, keys in
first-seen order, each holding that day's metric values in record
order. -/
theorem dailyGroups_eq (f : MoodEntry → ℚ) (entries : List MoodEntry) :
    dailyGroups f entries =
      (firstSeen (entries.map (fun e => e.day))).map
        (fun d => (d, (entries.filter (fun e => e.day = d)).map f)) := by
  have h := foldl_upsertWith (α := MoodEntry) (κ := ℕ) (β := List ℚ)
    [] (fun e => e.day) (fun e => (· ++ [f e])) entries
  have hb : dailyGroups f entries =
      entries.foldl
        (fun acc e => upsertWith [] ((fun e : MoodEntry => e.day) e)
          ((fun e : MoodEntry => (· ++ [f e])) e) acc) [] := rfl
  rw [hb, h]
  apply List.map_congr_left
  intro d hd
  rw [foldl_push_eq_map]
  simp

theorem dailyTrends_eq_spec (f : MoodEntry → ℚ) (entries : List MoodEntry) :
    dailyTrends f entries = specDailyTrends f entries := by
  have hg := dailyGroups_eq f entries
  have hkeys : (dailyGroups f entries).map Prod.fst =
      firstSeen (entries.map (fun e => e.day)) := by
    rw [hg, List.map_map]
    exact List.map_id _
  simp only [dailyTrends, specDailyTrends]
  rw [hkeys]
  apply List.map_congr_left
  intro d hd
  have hdmem : d ∈ firstSeen (entries.map (fun e => e.day)) :=
    (perm_sortAsc _).mem_iff.mp hd
  have hlook : lookupVals (dailyGroups f entries) d =
      (entries.filter (fun e => e.day = d)).map f := by
    rw [hg]
    unfold lookupVals
    rw [find?_map_of_nodup _ _ _ hdmem (nodup_firstSeen _)]
  rw [hlook, reduceSum_eq_sum]

/-! ## Mood averages, metric extraction and mood distribution
(mood stats and analytics overview handlers; MoodEntry `moodScore`
virtual) -/

/-- The metric tokens of the trends endpoint
(`metric` ∈ mood, energy, stress, anxiety, sleep). -/
inductive Metric
  | mood
  | energy
  | stress
  | anxiety
  | sleep
deriving DecidableEq, Repr

/-- The metric extraction switch of the trends handler:

    case 'mood':   values = moodEntries.map(entry => entry.moodScore);
    case 'energy': values = moodEntries.map(entry => entry.energy);
    ...
-/
def extractValues (m : Metric) (entries : List MoodEntry) : List ℚ :=
  match m with
  | .mood => entries.map (fun e => moodScore e.mood)
  | .energy => entries.map (fun e => e.energy)
  | .stress => entries.map (fun e => e.stress)
  | .anxiety => entries.map (fun e => e.anxiety)
  | .sleep => entries.map (fun e => e.sleepHours)

/-- `stats.averageMood`: `0` initially, and under the
`moodEntries.length > 0` guard the mean of the mapped mood scores. -/
def averageMood (entries : List MoodEntry) : ℚ :=
  if 0 < entries.length then
    reduceSum (entries.map (fun e => moodScore e.mood)) /
      ((entries.map (fun e => moodScore e.mood)).length : ℚ)
  else 0

/-- One step of `moodDistribution[entry.mood]++`.  The distribution
object has exactly the five mood keys, each starting at `0`, so it is
modelled as a function out of `Mood`. -/
def bumpMood (dist : Mood → ℕ) (m : Mood) : Mood → ℕ :=
  fun x => if x = m then dist x + 1 else dist x

/-- `moodEntries.forEach(entry => moodDistribution[entry.mood]++)` over
the records' mood fields, starting from the all-zero literal. -/
def moodDistribution (moods : List Mood) : Mood → ℕ :=
  moods.foldl bumpMood (fun _ => 0)

/-- The sum of the five buckets of a distribution. -/
def distTotal (dist : Mood → ℕ) : ℕ :=
  dist .verySad + dist .sad + dist .neutral + dist .happy + dist .veryHappy

theorem foldl_bumpMood_apply (l : List Mood) (dist : Mood → ℕ) (m : Mood) :
    (l.foldl bumpMood dist) m = dist m + (l.filter (fun x => x = m)).length := by
  induction l generalizing dist with
  | nil => simp
  | cons x xs ih =>
    rw [List.foldl_cons, ih]
    by_cases h : x = m
    · subst h
      simp [bumpMood, List.filter]
      omega
    · have : ¬(m = x) := fun he => h he.symm
      simp [bumpMood, List.filter, this, h]

theorem distTotal_bumpMood (dist : Mood → ℕ) (m : Mood) :
    distTotal (bumpMood dist m) = distTotal dist + 1 := by
  cases m <;> simp [distTotal, bumpMood] <;> omega

theorem distTotal_foldl (l : List Mood) (dist : Mood → ℕ) :
    distTotal (l.foldl bumpMood dist) = distTotal dist + l.length := by
  induction l generalizing dist with
  | nil => simp
  | cons x xs ih =>
    rw [List.foldl_cons, ih, distTotal_bumpMood, List.length_cons]
    omega

/-! ## Insight Engine (insights / recommendations block of the analytics
overview handler) -/

/-- The aggregate inputs the insight block reads: the mood-analytics
averages, the (name, category) pairs of `topActivities`, and the journal
analytics' writing streak and total entry count. -/
structure OverviewAggregates where
  averageMood : ℚ
  averageSleep : ℚ
  averageStress : ℚ
  topActivities : List (String × String)
  writingStreak : ℕ
  totalJournalEntries : ℕ

def lowMoodInsight : String :=
  "Your mood has been lower than average recently."

def lowMoodRecommendation : String :=
  "Consider engaging in activities that typically boost your mood, or reach out to a mental health professional."

def greatMoodInsight : String :=
  "You've been in a great mood lately! Keep up the positive energy."

def sleepInsight : String :=
  "Your sleep duration is below the recommended 7-9 hours."

def sleepRecommendation : String :=
  "Try to establish a consistent sleep schedule and create a relaxing bedtime routine."

def stressInsight : String :=
  "Your stress levels have been high recently."

def stressRecommendation : String :=
  "Consider stress-reduction techniques like meditation, deep breathing, or physical exercise."

def activityInsight (a : String × String) : String :=
  "Your most positive activity is " ++ a.1 ++ " (" ++ a.2 ++ ")."

def activityRecommendation (a : String × String) : String :=
  "Try to incorporate more " ++ a.1 ++ " into your daily routine."

def streakInsight (streak : ℕ) : String :=
  "Amazing! You have a " ++ toString streak ++ "-day writing streak."

def dailyWritingRecommendation : String :=
  "Try to write in your journal daily to build a consistent habit."

/-- The `insights` array, pushed to in source order.  The mood block is
an if / else-if chain, and the journal block pushes an insight only in
its first branch. -/
def insights (g : OverviewAggregates) : List String :=
  (if g.averageMood < 3 then [lowMoodInsight]
   else if 4 < g.averageMood then [greatMoodInsight]
   else []) ++
  (if g.averageSleep < 7 then [sleepInsight] else []) ++
  (if 7 < g.averageStress then [stressInsight] else []) ++
  (match g.topActivities with
   | [] => []
   | a :: _ => [activityInsight a]) ++
  (if 7 < g.writingStreak then [streakInsight g.writingStreak] else [])

/-- The `recommendations` array, pushed to in source order.  The journal
block pushes a recommendation only in its else-if branch
(`writingStreak === 0 && totalEntries > 0`). -/
def recommendations (g : OverviewAggregates) : List String :=
  (if g.averageMood < 3 then [lowMoodRecommendation] else []) ++
  (if g.averageSleep < 7 then [sleepRecommendation] else []) ++
  (if 7 < g.averageStress then [stressRecommendation] else []) ++
  (match g.topActivities with
   | [] => []
   | a :: _ => [activityRecommendation a]) ++
  (if ¬(7 < g.writingStreak) ∧ g.writingStreak = 0 ∧ 0 < g.totalJournalEntries
   then [dailyWritingRecommendation] else [])

/-- Modelled from the spec: the `insights` list of the seven-rule table
of §4.6 with every rule evaluated independently. -/
def specInsights (g : OverviewAggregates) : List String :=
  (if g.averageMood < 3 then [lowMoodInsight] else []) ++
  (if 4 < g.averageMood then [greatMoodInsight] else []) ++
  (if g.averageSleep < 7 then [sleepInsight] else []) ++
  (if 7 < g.averageStress then [stressInsight] else []) ++
  (match g.topActivities with
   | [] => []
   | a :: _ => [activityInsight a]) ++
  (if 7 < g.writingStreak then [streakInsight g.writingStreak] else [])

/-- Modelled from the spec: the `recommendations` list of the seven-rule
table of §4.6 with every rule evaluated independently. -/
def specRecommendations (g : OverviewAggregates) : List String :=
  (if g.averageMood < 3 then [lowMoodRecommendation] else []) ++
  (if g.averageSleep < 7 then [sleepRecommendation] else []) ++
  (if 7 < g.averageStress then [stressRecommendation] else []) ++
  (match g.topActivities with
   | [] => []
   | a :: _ => [activityRecommendation a]) ++
  (if g.writingStreak = 0 ∧ 0 < g.totalJournalEntries
   then [dailyWritingRecommendation] else [])

/-! ## Spec-side streak procedure (§4.4) -/

/-- Modelled from the spec: one iteration of the §4.4 walk — continue
while `diffDays = streak + 1`, or `streak = 0` and `diffDays ≤ 1`; on a
match increment the streak and move the cursor; on a mismatch stop. -/
def specStreakWalk : List ℤ → ℕ → ℤ → ℕ
  | [], streak, _ => streak
  | entryDate :: rest, streak, cursor =>
    if cursor - entryDate = (streak : ℤ) + 1 ∨
        (streak = 0 ∧ cursor - entryDate ≤ 1) then
      specStreakWalk rest (streak + 1) entryDate
    else streak

/-- Modelled from the spec: the §4.4 Streak Calculator — records sorted
by descending date, then the walk from `today` with streak `0`. -/
def specStreak (today : ℤ) (entryDays : List ℤ) : ℕ :=
  specStreakWalk (sortDesc entryDays) 0 today

/-! ## Supporting lemmas for the claim theorems -/

theorem streakLoop_eq_specStreakWalk (l : List ℤ) :
    ∀ streak cursor, streakLoop l streak cursor = specStreakWalk l streak cursor := by
  induction l with
  | nil => intro streak cursor; rfl
  | cons e es ih =>
    intro streak cursor
    rw [streakLoop, specStreakWalk]
    by_cases h : cursor - e = (streak : ℤ) + 1 ∨ (streak = 0 ∧ cursor - e ≤ 1)
    · rw [if_pos h, if_pos h, ih]
    · rw [if_neg h, if_neg h]

theorem mem_insertDesc (d x : ℤ) (l : List ℤ) :
    x ∈ insertDesc d l ↔ x = d ∨ x ∈ l := by
  induction l with
  | nil => simp [insertDesc]
  | cons e es ih =>
    by_cases h : e < d
    · simp [insertDesc, h]
    · simp [insertDesc, h, ih]
      tauto

theorem mem_sortDesc (x : ℤ) (l : List ℤ) : x ∈ sortDesc l ↔ x ∈ l := by
  induction l with
  | nil => simp [sortDesc]
  | cons d ds ih =>
    show x ∈ insertDesc d (sortDesc ds) ↔ _
    rw [mem_insertDesc]
    simp [ih]

/-- If every entry is at least two days before the cursor, the loop
breaks at once with streak `0`. -/
theorem streakLoop_far (l : List ℤ) (today : ℤ)
    (h : ∀ d ∈ l, 2 ≤ today - d) : streakLoop l 0 today = 0 := by
  cases l with
  | nil => rfl
  | cons e es =>
    have he : 2 ≤ today - e := h e (List.mem_cons_self e es)
    rw [streakLoop, if_neg]
    intro hc
    rcases hc with hc | hc
    · omega
    · omega

theorem foldl_min_le_init (v : ℚ) (vs : List ℚ) : vs.foldl min v ≤ v := by
  induction vs generalizing v with
  | nil => simp
  | cons x xs ih =>
    rw [List.foldl_cons]
    exact le_trans (ih (min v x)) (min_le_left v x)

theorem foldl_min_mem (v : ℚ) (vs : List ℚ) : vs.foldl min v ∈ v :: vs := by
  induction vs generalizing v with
  | nil => simp
  | cons x xs ih =>
    rw [List.foldl_cons]
    have h := ih (min v x)
    rcases List.mem_cons.mp h with h | h
    · rcases min_choice v x with hm | hm
      · rw [h, hm]; exact List.mem_cons_self _ _
      · rw [h, hm]; exact List.mem_cons_of_mem _ (List.mem_cons_self _ _)
    · exact List.mem_cons_of_mem _ (List.mem_cons_of_mem _ h)

theorem foldl_min_le (v : ℚ) (vs : List ℚ) :
    ∀ x ∈ v :: vs, vs.foldl min v ≤ x := by
  induction vs generalizing v with
  | nil =>
    intro x hx
    rw [List.mem_singleton] at hx
    simp [hx]
  | cons y ys ih =>
    intro x hx
    rw [List.foldl_cons]
    rcases List.mem_cons.mp hx with rfl | hx
    · exact le_trans (foldl_min_le_init _ _) (min_le_left _ _)
    · rcases List.mem_cons.mp hx with rfl | hx
      · exact le_trans (foldl_min_le_init _ _) (min_le_right _ _)
      · exact ih (min v y) x (List.mem_cons_of_mem _ hx)

theorem foldl_max_init_le (v : ℚ) (vs : List ℚ) : v ≤ vs.foldl max v := by
  induction vs generalizing v with
  | nil => simp
  | cons x xs ih =>
    rw [List.foldl_cons]
    exact le_trans (le_max_left v x) (ih (max v x))

theorem foldl_max_mem (v : ℚ) (vs : List ℚ) : vs.foldl max v ∈ v :: vs := by
  induction vs generalizing v with
  | nil => simp
  | cons x xs ih =>
    rw [List.foldl_cons]
    have h := ih (max v x)
    rcases List.mem_cons.mp h with h | h
    · rcases max_choice v x with hm | hm
      · rw [h, hm]; exact List.mem_cons_self _ _
      · rw [h, hm]; exact List.mem_cons_of_mem _ (List.mem_cons_self _ _)
    · exact List.mem_cons_of_mem _ (List.mem_cons_of_mem _ h)

theorem le_foldl_max (v : ℚ) (vs : List ℚ) :
    ∀ x ∈ v :: vs, x ≤ vs.foldl max v := by
  induction vs generalizing v with
  | nil =>
    intro x hx
    rw [List.mem_singleton] at hx
    simp [hx]
  | cons y ys ih =>
    intro x hx
    rw [List.foldl_cons]
    rcases List.mem_cons.mp hx with rfl | hx
    · exact le_trans (le_max_left _ _) (foldl_max_init_le _ _)
    · rcases List.mem_cons.mp hx with rfl | hx
      · exact le_trans (le_max_right _ _) (foldl_max_init_le _ _)
      · exact ih (max v y) x (List.mem_cons_of_mem _ hx)

/-- A string that differs from another within the first `n` characters
of that string's literal prefix cannot equal that prefix followed by
anything. -/
theorem ne_append_of_take_ne (s p rest : String) (n : ℕ)
    (hn : n ≤ p.data.length) (hne : s.data.take n ≠ p.data.take n) :
    s ≠ p ++ rest := by
  intro h
  apply hne
  have hd := congrArg String.data h
  rw [String.data_append] at hd
  rw [hd, List.take_append_of_le_length hn]

theorem lowMoodInsight_ne_activityInsight (a : String × String) :
    lowMoodInsight ≠ activityInsight a := by
  have h : activityInsight a =
      "Your most positive activity is " ++ (a.1 ++ " (" ++ a.2 ++ ").") := by
    simp [activityInsight, String.append_assoc]
  rw [h]
  exact ne_append_of_take_ne _ _ _ 9 (by decide) (by decide)

theorem lowMoodInsight_ne_streakInsight (n : ℕ) :
    lowMoodInsight ≠ streakInsight n := by
  have h : streakInsight n =
      "Amazing! You have a " ++ (toString n ++ "-day writing streak.") := by
    simp [streakInsight, String.append_assoc]
  rw [h]
  exact ne_append_of_take_ne _ _ _ 1 (by decide) (by decide)

/-- Modelled from the spec, amended at the zero first-half mean: the
§4.3 trend classification, except that a zero first-half mean yields
`increasing` / `decreasing` / `stable` according to the sign of the
second-half mean instead of always `stable`. -/
def specTrendDirection (values : List ℚ) : Trend :=
  if 2 ≤ values.length then
    let firstMean := (values.take (values.length / 2)).sum /
      ((values.take (values.length / 2)).length : ℚ)
    let secondMean := (values.drop (values.length / 2)).sum /
      ((values.drop (values.length / 2)).length : ℚ)
    if firstMean = 0 then
      if 0 < secondMean then .increasing
      else if secondMean < 0 then .decreasing
      else .stable
    else
      if 5 < (secondMean - firstMean) / firstMean * 100 then .increasing
      else if (secondMean - firstMean) / firstMean * 100 < -5 then .decreasing
      else .stable
  else .stable

/-! ## Claim theorems -/

/-- C1, counterexample: on the series `[0, 0, 0, 2]` the first half is
`[0, 0]` with mean exactly `0`, yet the code classifies the trend as
`increasing`, not `stable` as the claim states. -/
theorem claim1_counterexample :
    (([0, 0, 0, 2] : List ℚ).take 2).sum /
        ((([0, 0, 0, 2] : List ℚ).take 2).length : ℚ) = 0 ∧
    trendDirection [0, 0, 0, 2] = Trend.increasing ∧
    Trend.increasing ≠ Trend.stable := by
  refine ⟨by norm_num, ?_, by decide⟩
  norm_num [trendDirection, reduceSum_eq_sum]

/-- C1, amended: for every series of length at least 2, the trend equals
the split-at-floor(n/2) classification in which percent change
`(secondMean - firstMean) / firstMean * 100` decides `increasing`
(change > 5) / `decreasing` (change < -5) / `stable`, except that a zero
first-half mean yields `increasing` when the second-half mean is
positive, `decreasing` when negative and `stable` when zero. -/
theorem claim1_trend_amended (values : List ℚ) (_h : 2 ≤ values.length) :
    trendDirection values = specTrendDirection values := by
  simp only [trendDirection, specTrendDirection, reduceSum_eq_sum]

theorem claim1_trend_amended_witness :
    2 ≤ ([1, 2] : List ℚ).length ∧
    trendDirection [1, 2] = specTrendDirection [1, 2] :=
  ⟨by decide, claim1_trend_amended [1, 2] (by decide)⟩

/-- C2: on records dated today (day 0), yesterday (day -1) and three
days ago (day -3), with "today" the most recent record's day, the code's
writing streak evaluates to 1 — not 2 as the claim states.  After the
first match the cursor moves to day 0 and the streak becomes 1, so the
yesterday record needs `diffDays = 2` but has `diffDays = 1`, and the
loop breaks. -/
theorem claim2_streak_concrete :
    writingStreak 0 [0, -1, -3] = 1 := by decide

/-- C3: the writing-streak loop equals the §4.4 procedure — sort by
descending date, walk with `streak = 0` and cursor `today`, continue on
`diffDays = streak + 1` or (`streak = 0` and `diffDays ≤ 1`), stop on the
first mismatch — and returns 0 when no record is close enough to today
(every record at least two days back) to start a streak. -/
theorem claim3_streak_spec :
    (∀ (today : ℤ) (entryDays : List ℤ),
      writingStreak today entryDays = specStreak today entryDays) ∧
    (∀ (today : ℤ) (entryDays : List ℤ),
      (∀ d ∈ entryDays, 2 ≤ today - d) → writingStreak today entryDays = 0) := by
  constructor
  · intro today l
    exact streakLoop_eq_specStreakWalk (sortDesc l) 0 today
  · intro today l h
    apply streakLoop_far
    intro d hd
    exact h d ((mem_sortDesc d l).mp hd)

theorem claim3_streak_witness :
    writingStreak 10 [9, 8, 3] = specStreak 10 [9, 8, 3] ∧
    writingStreak 10 [5, 3] = 0 :=
  ⟨claim3_streak_spec.1 10 [9, 8, 3],
   claim3_streak_spec.2 10 [5, 3] (by decide)⟩

/-- C4, counterexample: the series `[3]` has length 1, yet its computed
`min` is 3, not zero as the claim states for series of length 0 or 1
("min and max are zero"). -/
theorem claim4_counterexample :
    ([3] : List ℚ).length = 1 ∧ (computeStatistics [3]).min ≠ 0 := by
  constructor
  · decide
  · norm_num [computeStatistics]

/-- C4, amended: the computation is total (never fails); for every series
of length 0 or 1 the trend is `stable`; on the empty series every output
(min, max, average, standard deviation) is the zero value; on a
single-point series `[v]` min, max and average all equal `v` and the
standard deviation is zero. -/
theorem claim4_degenerate :
    (∀ values : List ℚ, values.length ≤ 1 →
      (computeStatistics values).trend = Trend.stable) ∧
    computeStatistics [] = initialStatistics ∧
    volatility [] = 0 ∧
    (∀ v : ℚ, (computeStatistics [v]).min = v ∧ (computeStatistics [v]).max = v ∧
      (computeStatistics [v]).average = v ∧ (computeStatistics [v]).variance = 0 ∧
      volatility [v] = 0) := by
  refine ⟨?_, rfl, ?_, ?_⟩
  · intro values h
    match values with
    | [] => rfl
    | [v] => simp [computeStatistics, trendDirection]
    | v :: w :: rest => simp at h
  · have h0 : (computeStatistics ([] : List ℚ)).variance = 0 := rfl
    rw [volatility, h0]
    simp
  · intro v
    have havg : (computeStatistics [v]).average = v := by
      simp [computeStatistics, reduceSum]
    have hvar : (computeStatistics [v]).variance = 0 := by
      simp [computeStatistics, reduceSum, reduceSqDiff]
    refine ⟨rfl, rfl, havg, hvar, ?_⟩
    rw [volatility, hvar]
    simp

theorem claim4_degenerate_witness :
    ([2] : List ℚ).length ≤ 1 ∧
    (computeStatistics [2]).trend = Trend.stable ∧
    (computeStatistics [2]).min = 2 :=
  ⟨by decide, claim4_degenerate.1 [2] (by decide),
   (claim4_degenerate.2.2.2 2).1⟩

/-- C5: for every non-empty series the average is the sum divided by the
count, min and max are attained extrema, and the volatility is the
population standard deviation `sqrt(sum over x of (x - mean)^2 / count)`;
on `[1, 1, 1, 1]` the mean is 1, the standard deviation 0, and the trend
`stable`. -/
theorem claim5_aggregates :
    (∀ values : List ℚ, values ≠ [] →
      (computeStatistics values).average = values.sum / (values.length : ℚ) ∧
      (computeStatistics values).min ∈ values ∧
      (∀ x ∈ values, (computeStatistics values).min ≤ x) ∧
      (computeStatistics values).max ∈ values ∧
      (∀ x ∈ values, x ≤ (computeStatistics values).max) ∧
      volatility values = Real.sqrt
        ((((values.map (fun x => (x - values.sum / (values.length : ℚ)) ^ 2)).sum /
          (values.length : ℚ) : ℚ) : ℝ))) ∧
    (computeStatistics [1, 1, 1, 1]).average = 1 ∧
    volatility [1, 1, 1, 1] = 0 ∧
    (computeStatistics [1, 1, 1, 1]).trend = Trend.stable := by
  refine ⟨?_, ?_, ?_, ?_⟩
  · intro values hne
    match values with
    | v :: vs =>
      refine ⟨?_, foldl_min_mem v vs, foldl_min_le v vs,
        foldl_max_mem v vs, le_foldl_max v vs, ?_⟩
      · show reduceSum (v :: vs) / ((v :: vs).length : ℚ) = _
        rw [reduceSum_eq_sum]
      · have hv : (computeStatistics (v :: vs)).variance =
            ((v :: vs).map (fun x => (x - (v :: vs).sum / (((v :: vs).length : ℕ) : ℚ)) ^ 2)).sum /
              (((v :: vs).length : ℕ) : ℚ) := by
          show reduceSqDiff (reduceSum (v :: vs) / _) (v :: vs) / _ = _
          rw [reduceSum_eq_sum, reduceSqDiff_eq_sum]
        rw [volatility, hv]
  · norm_num [computeStatistics, reduceSum_eq_sum]
  · have hvar : (computeStatistics [1, 1, 1, 1]).variance = 0 := by
      norm_num [computeStatistics, reduceSqDiff_eq_sum, reduceSum_eq_sum]
    rw [volatility, hvar]
    simp
  · norm_num [computeStatistics, trendDirection, reduceSum_eq_sum]

theorem claim5_aggregates_witness :
    ([2, 4] : List ℚ) ≠ [] ∧
    (computeStatistics [2, 4]).average =
      ([2, 4] : List ℚ).sum / ((([2, 4] : List ℚ).length : ℚ)) ∧
    (computeStatistics [2, 4]).min ∈ ([2, 4] : List ℚ) :=
  ⟨by simp, (claim5_aggregates.1 [2, 4] (by simp)).1,
   (claim5_aggregates.1 [2, 4] (by simp)).2.1⟩

/-- C6: the tag ranker counts occurrences of each distinct tag across all
records, sorts descending by count with ties kept in first-encounter
order (a stable sort over the insertion-ordered count table), and takes
the top N (10 at the call sites); it returns `[]` on empty input, and on
the tag multiset a, b, a, c, b, a it returns a:3, b:2, c:1. -/
theorem claim6_ranker :
    (∀ records : List (List String), mostUsedTags records = specTopTags 10 records) ∧
    (∀ (records : List (List String)) (n : ℕ),
      (sortByCountDesc (tagCounts records)).take n = specTopTags n records) ∧
    (∀ records : List (List String),
      (mostUsedTags records).Pairwise (fun a b => b.2 ≤ a.2)) ∧
    (∀ (records : List (List String)) (c : ℕ),
      (sortByCountDesc (tagCounts records)).filter (fun q => q.2 = c) =
        (tagCounts records).filter (fun q => q.2 = c)) ∧
    mostUsedTags [] = [] ∧
    mostUsedTags [["a", "b", "a", "c", "b", "a"]] = [("a", 3), ("b", 2), ("c", 1)] := by
  refine ⟨?_, ?_, ?_, ?_, by decide, by decide⟩
  · intro records
    show (sortByCountDesc (tagCounts records)).take 10 = _
    rw [tagCounts_eq_specTagCounts]
    rfl
  · intro records n
    rw [tagCounts_eq_specTagCounts]
    rfl
  · intro records
    exact List.Pairwise.sublist (List.take_sublist _ _) (sorted_sortByCountDesc _)
  · intro records c
    exact filter_sortByCountDesc c (tagCounts records)

theorem insights_eq_specInsights (g : OverviewAggregates) :
    insights g = specInsights g := by
  by_cases h3 : g.averageMood < 3
  · have h4 : ¬(4 < g.averageMood) := by linarith
    simp [insights, specInsights, h3, h4]
  · simp [insights, specInsights, h3]

theorem recommendations_eq_specRecommendations (g : OverviewAggregates) :
    recommendations g = specRecommendations g := by
  by_cases h0 : g.writingStreak = 0
  · have h7 : ¬(7 < g.writingStreak) := by omega
    simp [recommendations, specRecommendations, h0, h7]
  · simp [recommendations, specRecommendations, h0]

/-- C7: the insight/recommendation block equals the seven-rule table of
§4.6 evaluated with every rule independent (the source's else-if pairs
join mutually exclusive conditions, so they coincide); a mean mood of 2.0
produces the low-mood insight and its recommendation, and a mean mood of
4.5 produces the great-mood insight and not the low-mood one. -/
theorem claim7_insights :
    (∀ g : OverviewAggregates, insights g = specInsights g) ∧
    (∀ g : OverviewAggregates, recommendations g = specRecommendations g) ∧
    (∀ g : OverviewAggregates, g.averageMood = 2 →
      lowMoodInsight ∈ insights g ∧ lowMoodRecommendation ∈ recommendations g) ∧
    (∀ g : OverviewAggregates, g.averageMood = 4.5 →
      greatMoodInsight ∈ insights g ∧ lowMoodInsight ∉ insights g) := by
  refine ⟨insights_eq_specInsights, recommendations_eq_specRecommendations, ?_, ?_⟩
  · intro g hm
    have h3 : g.averageMood < 3 := by rw [hm]; norm_num
    constructor
    · simp [insights, h3]
    · simp [recommendations, h3]
  · intro g hm
    have h3 : ¬(g.averageMood < 3) := by rw [hm]; norm_num
    have h4 : 4 < g.averageMood := by rw [hm]; norm_num
    constructor
    · simp [insights, h3, h4]
    · intro hmem
      simp only [insights, if_neg h3, if_pos h4, List.mem_append] at hmem
      rcases hmem with ((((h | h) | h) | h) | h)
      · rw [List.mem_singleton] at h
        exact absurd h (by decide)
      · split_ifs at h with hc
        · rw [List.mem_singleton] at h
          exact absurd h (by decide)
        · simp at h
      · split_ifs at h with hc
        · rw [List.mem_singleton] at h
          exact absurd h (by decide)
        · simp at h
      · cases hta : g.topActivities with
        | nil => rw [hta] at h; simp at h
        | cons a rest =>
          rw [hta] at h
          rw [show (match a :: rest with
                | [] => ([] : List String)
                | a :: _ => [activityInsight a]) = [activityInsight a] from rfl,
            List.mem_singleton] at h
          exact absurd h (lowMoodInsight_ne_activityInsight a)
      · split_ifs at h with hc
        · rw [List.mem_singleton] at h
          exact absurd h (lowMoodInsight_ne_streakInsight g.writingStreak)
        · simp at h

theorem claim7_insights_witness :
    insights ⟨2, 8, 5, [], 3, 1⟩ = specInsights ⟨2, 8, 5, [], 3, 1⟩ ∧
    lowMoodInsight ∈ insights ⟨2, 8, 5, [], 3, 1⟩ ∧
    lowMoodRecommendation ∈ recommendations ⟨2, 8, 5, [], 3, 1⟩ ∧
    greatMoodInsight ∈ insights ⟨4.5, 8, 5, [], 3, 1⟩ ∧
    lowMoodInsight ∉ insights ⟨4.5, 8, 5, [], 3, 1⟩ :=
  ⟨claim7_insights.1 ⟨2, 8, 5, [], 3, 1⟩,
   (claim7_insights.2.2.1 ⟨2, 8, 5, [], 3, 1⟩ rfl).1,
   (claim7_insights.2.2.1 ⟨2, 8, 5, [], 3, 1⟩ rfl).2,
   (claim7_insights.2.2.2 ⟨4.5, 8, 5, [], 3, 1⟩ rfl).1,
   (claim7_insights.2.2.2 ⟨4.5, 8, 5, [], 3, 1⟩ rfl).2⟩

theorem dailyTrends_keys (f : MoodEntry → ℚ) (entries : List MoodEntry) :
    (dailyTrends f entries).map Prod.fst =
      sortAsc (firstSeen (entries.map (fun e => e.day))) := by
  have hkeys : (dailyGroups f entries).map Prod.fst =
      firstSeen (entries.map (fun e => e.day)) := by
    rw [dailyGroups_eq, List.map_map]
    exact List.map_id _
  simp only [dailyTrends]
  rw [hkeys, List.map_map]
  exact List.map_id _

/-- C8: for every record set and metric, the daily series has exactly one
(day, value) point per distinct calendar day of the input — no day
invented or dropped, keys without duplicates — in ascending day order,
each value being the arithmetic mean of the metric over that day's
records; the empty input yields the empty series. -/
theorem claim8_daily :
    (∀ (f : MoodEntry → ℚ) (entries : List MoodEntry),
      dailyTrends f entries = specDailyTrends f entries) ∧
    (∀ (f : MoodEntry → ℚ) (entries : List MoodEntry) (d : ℕ),
      d ∈ (dailyTrends f entries).map Prod.fst ↔
        d ∈ entries.map (fun e => e.day)) ∧
    (∀ (f : MoodEntry → ℚ) (entries : List MoodEntry),
      ((dailyTrends f entries).map Prod.fst).Nodup) ∧
    (∀ (f : MoodEntry → ℚ) (entries : List MoodEntry),
      ((dailyTrends f entries).map Prod.fst).Pairwise (· ≤ ·)) ∧
    (∀ (f : MoodEntry → ℚ) (entries : List MoodEntry) (p : ℕ × ℚ),
      p ∈ dailyTrends f entries →
        p.2 = ((entries.filter (fun e => e.day = p.1)).map f).sum /
          (((entries.filter (fun e => e.day = p.1)).map f).length : ℚ)) ∧
    (∀ f : MoodEntry → ℚ, dailyTrends f [] = []) := by
  refine ⟨dailyTrends_eq_spec, ?_, ?_, ?_, ?_, fun f => rfl⟩
  · intro f entries d
    rw [dailyTrends_keys]
    rw [(perm_sortAsc _).mem_iff]
    exact mem_firstSeen _ d
  · intro f entries
    rw [dailyTrends_keys]
    exact ((perm_sortAsc _).nodup_iff).mpr (nodup_firstSeen _)
  · intro f entries
    rw [dailyTrends_keys]
    exact sorted_sortAsc _
  · intro f entries p hp
    rw [dailyTrends_eq_spec] at hp
    unfold specDailyTrends at hp
    rcases List.mem_map.mp hp with ⟨d, _hd, hdp⟩
    rw [← hdp]

theorem claim8_daily_witness :
    ((1 : ℕ), (5 : ℚ)) ∈
      dailyTrends (fun e => e.energy) [⟨1, Mood.neutral, 5, 6, 7, 8⟩] ∧
    ((1 : ℕ), (5 : ℚ)).2 =
      ((([⟨1, Mood.neutral, 5, 6, 7, 8⟩] : List MoodEntry).filter
        (fun e => e.day = ((1 : ℕ), (5 : ℚ)).1)).map (fun e => e.energy)).sum /
        (((([⟨1, Mood.neutral, 5, 6, 7, 8⟩] : List MoodEntry).filter
          (fun e => e.day = ((1 : ℕ), (5 : ℚ)).1)).map (fun e => e.energy)).length : ℚ) := by
  have hmem : ((1 : ℕ), (5 : ℚ)) ∈
      dailyTrends (fun e => e.energy) [⟨1, Mood.neutral, 5, 6, 7, 8⟩] := by
    norm_num [dailyTrends, dailyGroups, pushDay, upsertWith, sortAsc, insertAsc,
      lookupVals, reduceSum]
  exact ⟨hmem, claim8_daily.2.2.2.2.1 (fun e => e.energy)
    [⟨1, Mood.neutral, 5, 6, 7, 8⟩] ((1 : ℕ), (5 : ℚ)) hmem⟩

/-- C9: the mood category is converted to its ordinal score by exactly
the fixed `moodMap` table (very-sad 1, sad 2, neutral 3, happy 4,
very-happy 5), and the mood-derived statistics — the trends endpoint's
mood value series and the overview's average mood — are computed from
records through this mapping. -/
theorem claim9_mood_mapping :
    moodScore .verySad = 1 ∧ moodScore .sad = 2 ∧ moodScore .neutral = 3 ∧
    moodScore .happy = 4 ∧ moodScore .veryHappy = 5 ∧
    (∀ entries : List MoodEntry,
      extractValues .mood entries = entries.map (fun e => moodScore e.mood)) ∧
    (∀ entries : List MoodEntry, 0 < entries.length →
      averageMood entries =
        (entries.map (fun e => moodScore e.mood)).sum / (entries.length : ℚ)) := by
  refine ⟨rfl, rfl, rfl, rfl, rfl, fun entries => rfl, ?_⟩
  intro entries h
  rw [averageMood, if_pos h, reduceSum_eq_sum, List.length_map]

theorem claim9_mood_mapping_witness :
    0 < ([⟨1, Mood.happy, 5, 6, 7, 8⟩] : List MoodEntry).length ∧
    averageMood [⟨1, Mood.happy, 5, 6, 7, 8⟩] =
      (([⟨1, Mood.happy, 5, 6, 7, 8⟩] : List MoodEntry).map
        (fun e => moodScore e.mood)).sum /
        ((([⟨1, Mood.happy, 5, 6, 7, 8⟩] : List MoodEntry).length : ℚ)) :=
  ⟨by decide, claim9_mood_mapping.2.2.2.2.2.2 [⟨1, Mood.happy, 5, 6, 7, 8⟩] (by decide)⟩

/-- C10: for every record list over the five-category mood enum, each
distribution bucket counts exactly the records whose mood is that
category — so every record is tallied in exactly one bucket — and the
five bucket counts sum to the number of records. -/
theorem claim10_mood_distribution :
    (∀ (moods : List Mood) (m : Mood),
      moodDistribution moods m = (moods.filter (fun x => x = m)).length) ∧
    (∀ moods : List Mood, distTotal (moodDistribution moods) = moods.length) := by
  constructor
  · intro moods m
    rw [moodDistribution, foldl_bumpMood_apply, Nat.zero_add]
  · intro moods
    rw [moodDistribution, distTotal_foldl]
    simp [distTotal]

end Tracker
